import Mathlib

/-!
Verification development for the qc-buddy backend.

The definitions below are a shallow embedding of the JavaScript sources:
* `src/rag.js` — topic detection, chunk scoring/ranking, answer assembly;
* `src/server.js` — `answerOne` (RAG answer plus optional external generation);
* `src/knowledgeLoader.js` — JSON flattening, heading/rule filters, corpus load;
* the offline ingestion script (`make_knowledge.mjs`) — sentence chunker and
  filename/text classifier;
* the alternate rag module — the dedup-and-select step of its `buildAnswer`.

JavaScript strings are modelled as Lean `String`/`List Char`; JS regular
expressions are modelled by explicit scanners over `List Char` that implement
the exact patterns appearing in the sources.
-/

namespace QCB

/-! ### Character classes (JS `\s`, `\w`, `\d`, `[.!?]`) -/

/-- JS `\s` (whitespace class), restricted to the usual ASCII whitespace. -/
def isWs (c : Char) : Bool := c.isWhitespace

/-- JS `\w` word character class `[A-Za-z0-9_]`. -/
def isWordChar (c : Char) : Bool := c.isAlphanum || c = '_'

/-- JS `\d` digit class. -/
def isDigitC (c : Char) : Bool := c.isDigit

/-- Sentence-terminating punctuation class `[.!?]`. -/
def isPunct (c : Char) : Bool := c = '.' || c = '!' || c = '?'

/-- Lowercase a character sequence (JS `toLowerCase`, ASCII letters). -/
def toLowerL (l : List Char) : List Char := l.map Char.toLower

/-- Uppercase a character sequence (JS `toUpperCase`, ASCII letters). -/
def toUpperL (l : List Char) : List Char := l.map Char.toUpper

/-- JS `String.prototype.trim` on a character list. -/
def trimL (l : List Char) : List Char :=
  ((l.dropWhile isWs).reverse.dropWhile isWs).reverse

/-- JS `String.prototype.trim`. -/
def trimS (s : String) : String := ⟨trimL s.data⟩

/-- JS `toLowerCase` on strings. -/
def toLowerS (s : String) : String := ⟨toLowerL s.data⟩

/-- JS `toUpperCase` on strings. -/
def toUpperS (s : String) : String := ⟨toUpperL s.data⟩

/-- Does `needle` occur as a contiguous run inside `hay`? -/
def isInfixL (needle : List Char) : List Char → Bool
  | [] => needle.isEmpty
  | c :: rest => needle.isPrefixOf (c :: rest) || isInfixL needle rest

/-- JS `String.prototype.includes`: `needle` occurs as a contiguous substring. -/
def containsSub (hay needle : String) : Bool :=
  isInfixL needle.data hay.data

/-! ### A matcher for the regular expressions used by the sources

Every regex tested by the embedded code is an alternation of simple
sequences built from literals, `\s*`-style character-class stars and `\b`
word boundaries, so a tiny explicit matcher covers them exactly. -/

/-- One atom of a regex alternative: a literal, a greedy character-class star
(such as `\s*` or `[_\s-]*`; in every source pattern the atom following the
star cannot begin with a character of the class, so greedy matching is exact),
or a `\b` word boundary. -/
inductive Pat where
  | lit : List Char → Pat
  | star : (Char → Bool) → Pat
  | wb : Pat

/-- Match a sequence of atoms at the start of `s`; `prev` is the character
just before the current position (for `\b`). -/
def matchSeq (prev : Option Char) : List Pat → List Char → Bool
  | [], _ => true
  | Pat.lit l :: ps, s =>
    if l.isPrefixOf s then
      matchSeq (l.getLast?.or prev) ps (s.drop l.length)
    else false
  | Pat.star p :: ps, s =>
    let run := s.takeWhile p
    matchSeq (run.getLast?.or prev) ps (s.dropWhile p)
  | Pat.wb :: ps, s =>
    let pw := match prev with | some c => isWordChar c | none => false
    let nw := match s with | c :: _ => isWordChar c | [] => false
    if pw ≠ nw then matchSeq prev ps s else false

/-- Source: `RegExp.test`: does some alternative match at some position of `s`?
`prev` is the character before the current scan position. -/
def scanMatch (alts : List (List Pat)) (prev : Option Char) : List Char → Bool
  | [] => alts.any fun p => matchSeq prev p []
  | c :: rest =>
    (alts.any fun p => matchSeq prev p (c :: rest)) || scanMatch alts (some c) rest

/-- Test an alternation against a whole string (scan from the start). -/
def testPats (alts : List (List Pat)) (s : List Char) : Bool :=
  scanMatch alts none s

/-! ### `src/rag.js` — topic detection (`detectTopic`, lines 7–15) -/

/-- Source: `/(company|cr\b|trade\s*license|tl\b|trn|vat|address)/` -/
def companyPats : List (List Pat) :=
  [[Pat.lit "company".data], [Pat.lit "cr".data, Pat.wb],
   [Pat.lit "trade".data, Pat.star isWs, Pat.lit "license".data],
   [Pat.lit "tl".data, Pat.wb], [Pat.lit "trn".data], [Pat.lit "vat".data],
   [Pat.lit "address".data]]

/-- Source: `/(tag|cuisine|fast\s*food|only on careem|new restaurant|c\+)/` -/
def tagsPats : List (List Pat) :=
  [[Pat.lit "tag".data], [Pat.lit "cuisine".data],
   [Pat.lit "fast".data, Pat.star isWs, Pat.lit "food".data],
   [Pat.lit "only on careem".data], [Pat.lit "new restaurant".data],
   [Pat.lit "c+".data]]

/-- Source: `/(capitalize|capitalisation|writing|description|customization|customisation|uppercase|lowercase)/` -/
def writingPats : List (List Pat) :=
  [[Pat.lit "capitalize".data], [Pat.lit "capitalisation".data],
   [Pat.lit "writing".data], [Pat.lit "description".data],
   [Pat.lit "customization".data], [Pat.lit "customisation".data],
   [Pat.lit "uppercase".data], [Pat.lit "lowercase".data]]

/-- Source: `/(image|hero|1200|1125|780|dimension|size)/` -/
def imagesPats : List (List Pat) :=
  [[Pat.lit "image".data], [Pat.lit "hero".data], [Pat.lit "1200".data],
   [Pat.lit "1125".data], [Pat.lit "780".data], [Pat.lit "dimension".data],
   [Pat.lit "size".data]]

/-- Source: `/(zone|radius|discovery|delivery area|coverage|plan\s*a)/` -/
def zonesPats : List (List Pat) :=
  [[Pat.lit "zone".data], [Pat.lit "radius".data], [Pat.lit "discovery".data],
   [Pat.lit "delivery area".data], [Pat.lit "coverage".data],
   [Pat.lit "plan".data, Pat.star isWs, Pat.lit "a".data]]

/-- Source: `detectTopic` from `src/rag.js` lines 7–15: lowercase the query, then the
first matching rule wins, defaulting to `"misc"`. -/
def detectTopic (q : String) : String :=
  let s := (toLowerS q).data
  if testPats companyPats s then "company"
  else if testPats tagsPats s then "tags"
  else if testPats writingPats s then "writing"
  else if testPats imagesPats s then "images"
  else if testPats zonesPats s then "zones"
  else "misc"

/-- The six canonical topic labels of the data model. -/
def topicLabels : List String :=
  ["company", "tags", "writing", "images", "zones", "misc"]

theorem detectTopic_mem (q : String) : detectTopic q ∈ topicLabels := by
  simp only [detectTopic, topicLabels]
  split_ifs <;> simp

/-! ### Levenshtein distance (the `fast-levenshtein` dependency)

The `fast-levenshtein` package computes the classical edit distance with the
row-by-row Wagner–Fischer dynamic program; `levAux`/`levRun` are that DP. -/

/-- Compute one DP row past the first cell: `prevRest` holds the remaining
cells of the previous row, `diag` the cell diagonally up-left, `left` the cell
just written. -/
def levAux (x : Char) : List Char → List Nat → Nat → Nat → List Nat
  | [], _, _, _ => []
  | y :: ys, prevRest, diag, left =>
    let up := prevRest.headD 0
    let cell := if x = y then diag else 1 + min diag (min left up)
    cell :: levAux x ys prevRest.tail up cell

/-- Fold the DP rows over the first word. -/
def levRun : List Char → List Char → List Nat → List Nat
  | [], _, row => row
  | x :: xs, b, row =>
    let h := row.headD 0
    levRun xs b ((h + 1) :: levAux x b row.tail h (h + 1))

/-- Levenshtein edit distance between two character sequences
(`levenshtein.get` in `src/rag.js`). -/
def lev (a b : List Char) : Nat :=
  (levRun a b (List.range (b.length + 1))).getLastD 0

/-! ### `src/rag.js` — chunk scoring and ranking (`scoreChunks`, lines 18–35) -/

/-- The canonical retrieval unit: exactly the four fields
`{title, market, topic, text}` used by the sources. -/
structure Chunk where
  title : String
  market : String
  topic : String
  text : String
deriving DecidableEq, Repr

/-- rag.js lines 23–24, 28: lowercase the question and the chunk text, take
the edit distance to the first 300 characters of the text, and contribute
`Math.max(0, 60 - dist)`. -/
def levPart (question : String) (c : Chunk) : Int :=
  let q := toLowerL question.data
  let t := toLowerL c.text.data
  max 0 (60 - (lev q (t.take 300) : Int))

/-- rag.js lines 20, 25, 29–30: `+40` when the uppercased chunk market equals
the requested market (`(marketPref || "AUTO").toUpperCase()`), else `+10`
when the chunk market is `"ALL"` or the requested market is `"AUTO"`. -/
def marketPart (marketPref : String) (c : Chunk) : Int :=
  let mkt := toUpperS (if marketPref = "" then "AUTO" else marketPref)
  let market := toUpperS (if c.market = "" then "ALL" else c.market)
  if market = mkt then 40
  else if market = "ALL" ∨ mkt = "AUTO" then 10
  else 0

/-- rag.js lines 26, 31: `+20` when the lowercased chunk topic contains the
detected query topic as a substring (`topic.includes(detectTopic(q))`, with
`q` the lowercased question). -/
def topicPart (question : String) (c : Chunk) : Int :=
  let topic := toLowerS (if c.topic = "" then "misc" else c.topic)
  if containsSub topic (detectTopic (toLowerS question)) then 20 else 0

/-- The total score `scoreChunks` assigns to one chunk (rag.js lines 22–33):
the sum of the three contributions accumulated into `score`. -/
def scoreChunk (question marketPref : String) (c : Chunk) : Int :=
  levPart question c + marketPart marketPref c + topicPart question c

/-- rag.js lines 18–35: score every chunk, then sort descending by score
(`.sort((a, b) => b.score - a.score)`, a stable sort). -/
def scoreChunks (question : String) (chunks : List Chunk) (marketPref : String) :
    List (Chunk × Int) :=
  List.insertionSort (fun a b => b.2 ≤ a.2)
    (chunks.map fun c => (c, scoreChunk question marketPref c))

/-! ### `src/rag.js` — `buildAnswer` (lines 38–71) -/

structure AnswerResult where
  text : String
  sources : List Chunk
deriving DecidableEq, Repr

/-- The fixed refusal answer of rag.js line 41. -/
def refusalText : String := "I couldn’t find any SOP data yet."

/-- The per-topic summary of rag.js lines 48–59. -/
def summaryFor (topic : String) : String :=
  if topic = "company" then
    "Company: take data from official docs (AE: CR/TL; JO: CR). Remove ‘Sole Proprietorship’. Keep only ‘L.L.C’. Don’t invent."
  else if topic = "tags" then
    "Tags: Up to 3 cuisine tags; reflect ~50% of menu. Avoid ‘Fast Food’ unless true QSR."
  else if topic = "writing" then
    "Writing: Item names Title Case; descriptions sentence-style; options Every Word Capitalized."
  else if topic = "images" then
    "Images: item 1200×1200; hero 1125×780."
  else if topic = "zones" then
    "Zones: discovery/delivery radius depends on city/zone; ask a specific city."
  else
    "I’ll answer using the SOP context (company, tags, writing, images, or zones)."

/-- Source: `buildAnswer` from rag.js lines 38–71: empty store ⇒ fixed refusal with no
sources; otherwise rank, keep the top 3, and prepend the topic summary to the
best chunk's text. -/
def buildAnswer (knowledge : List Chunk) (question marketPref : String) :
    AnswerResult :=
  if knowledge.isEmpty then ⟨refusalText, []⟩
  else
    let ranked := (scoreChunks question knowledge marketPref).take 3
    let best := ranked.head?.map (·.1)
    let summary := summaryFor (detectTopic question)
    let tail :=
      match best with
      | some b => if b.text ≠ "" then "\n\n" ++ b.text else ""
      | none => ""
    ⟨trimS (summary ++ tail), ranked.map (·.1)⟩

/-! ### `src/server.js` — `sanitizeAnswer` (lines 54–62) and `answerOne`
(lines 76–98) -/

/-- The backquote character (spelled numerically). -/
def btick : Char := Char.ofNat 96

/-- Opening curly bracket. -/
def lcurly : Char := Char.ofNat 123

/-- Closing curly bracket. -/
def rcurly : Char := Char.ofNat 125

/-- Opening square bracket. -/
def lsquare : Char := Char.ofNat 91

/-- Closing square bracket. -/
def rsquare : Char := Char.ofNat 93

/-- Split a character list at the first occurrence of three consecutive
backquotes, returning the portions before and after it. -/
def splitAtTriple : List Char → Option (List Char × List Char)
  | c1 :: c2 :: c3 :: rest =>
    if c1 = btick ∧ c2 = btick ∧ c3 = btick then some ([], rest)
    else
      match splitAtTriple (c2 :: c3 :: rest) with
      | some (b, a) => some (c1 :: b, a)
      | none => none
  | _ => none

/-- Global replace of (lazy) fenced blocks with the empty string: drop from
each triple backquote through the next one.  `fuel` only bounds the number of
removed blocks; the initial string length always suffices. -/
def stripFencesF : Nat → List Char → List Char
  | 0, s => s
  | fuel + 1, s =>
    match splitAtTriple s with
    | none => s
    | some (bef, aft1) =>
      match splitAtTriple aft1 with
      | none => s
      | some (_, aft2) => bef ++ stripFencesF fuel aft2

/-- Index of the last occurrence of a character. -/
def lastIdxOf (ch : Char) : List Char → Option Nat
  | [] => none
  | c :: rest =>
    match lastIdxOf ch rest with
    | some i => some (i + 1)
    | none => if c = ch then some 0 else none

/-- Global replace of a greedy `oc[\s\S]{200,}cc` pattern with the empty
string: from an opening character, a greedy match runs to the last closing
character at distance at least 200. -/
def bigPairF (oc cc : Char) : Nat → List Char → List Char
  | 0, s => s
  | _ + 1, [] => []
  | fuel + 1, c :: rest =>
    if c = oc then
      match lastIdxOf cc rest with
      | some k =>
        if 200 ≤ k then bigPairF oc cc fuel (rest.drop (k + 1))
        else c :: bigPairF oc cc fuel rest
      | none => c :: bigPairF oc cc fuel rest
    else c :: bigPairF oc cc fuel rest

/-- Replace every run of three or more newlines by exactly two
(`s.replace(/\n{3,}/g, "\n\n")`): emit the first two of a run, drop the rest;
`run` counts the newlines of the current run already seen. -/
def collapseNl (run : Nat) : List Char → List Char
  | [] => []
  | c :: rest =>
    if c = '\n' then
      if 2 ≤ run then collapseNl (run + 1) rest
      else c :: collapseNl (run + 1) rest
    else c :: collapseNl 0 rest

/-- Source: `sanitizeAnswer` from server.js lines 54–62: strip code fences, strip
200+-character bracketed blobs, collapse newline runs, trim, and cap at 800
characters with an ellipsis. -/
def sanitizeAnswer (s : String) : String :=
  if s = "" then s
  else
    let l1 := stripFencesF s.data.length s.data
    let l2 := bigPairF lcurly rcurly l1.length l1
    let l3 := bigPairF lsquare rsquare l2.length l2
    let l4 := trimL (collapseNl 0 l3)
    if 800 < l4.length then ⟨l4.take 800 ++ " …".data⟩ else ⟨l4⟩

structure AnswerOne where
  answer : String
  sources : List Chunk
  generatorInvoked : Bool
deriving DecidableEq, Repr

/-- Source: `answerOne` from server.js lines 76–98.  The grounded-prompt build and the
`callGeminiAPI` call happen exactly when `forceRAG` is false and AI is enabled
(`GEMINI_KEY` set and mode not `"off"`); `generatorInvoked` records that.
The external call's result is the abstract input `aiResponse` (`null` when
every model fails); a non-empty trimmed response replaces the RAG text after
`sanitizeAnswer`, and an overall empty answer falls back to `"Looks good ✅"`. -/
def answerOne (knowledge : List Chunk) (message market : String)
    (forceRAG aiEnabled : Bool) (aiResponse : Option String) : AnswerOne :=
  let rag := buildAnswer knowledge message market
  let invoked := !forceRAG && aiEnabled
  let final :=
    if invoked then
      match aiResponse with
      | some ai => if trimS ai ≠ "" then sanitizeAnswer (trimS ai) else rag.text
      | none => rag.text
    else rag.text
  ⟨if final = "" then "Looks good ✅" else final, rag.sources, invoked⟩

/-! ### The ingestion script (`make_knowledge.mjs`) — sentence chunker

`splitSmartBySentences` (lines 74–88) splits text into sentences at the regex
`/(?<=[.!?])\s+(?=[^\s])/` and re-accumulates them under a character cap.
`sgo` is a character-by-character scanner implementing exactly that split:
a piece boundary sits after a `[.!?]` character, swallowing a nonempty
whitespace run, provided a non-whitespace character follows. -/

/-- Scanner state: `cur` is the current piece (reversed), `pend` a pending
whitespace run seen since the last character (reversed, only tracked when
`sawPunct`), `sawPunct` whether the character before `pend` was `[.!?]`. -/
def sgo (cur pend : List Char) (sawPunct : Bool) : List Char → List (List Char)
  | [] => [(pend ++ cur).reverse]
  | c :: rest =>
    if isWs c then
      if sawPunct then sgo cur (c :: pend) true rest
      else sgo (c :: cur) [] false rest
    else
      if sawPunct && !pend.isEmpty then
        cur.reverse :: sgo [c] [] (isPunct c) rest
      else
        sgo (c :: (pend ++ cur)) [] (isPunct c) rest

/-- Source: `String(text).split(/(?<=[.!?])\s+(?=[^\s])/g)` from line 77. -/
def splitSentences (text : List Char) : List (List Char) :=
  sgo [] [] false text

/-- The accumulation loop of `splitSmartBySentences` (lines 78–86): grow a
buffer sentence by sentence; when appending would exceed the cap, flush the
trimmed buffer (if nonempty) and restart from the current sentence; flush the
remainder at the end. -/
def smartLoop (maxChars : Nat) : List Char → List (List Char) → List (List Char)
  | buf, [] => if trimL buf = [] then [] else [trimL buf]
  | buf, s :: ss =>
    if maxChars < (buf ++ ' ' :: s).length then
      (if trimL buf = [] then [] else [trimL buf]) ++ smartLoop maxChars s ss
    else
      smartLoop maxChars (if buf = [] then s else buf ++ ' ' :: s) ss

/-- Source: `splitSmartBySentences(text, maxChars)` from lines 74–88. -/
def splitSmartBySentences (text : List Char) (maxChars : Nat) : List (List Char) :=
  smartLoop maxChars [] (splitSentences text)

/-- A `(title, text)` section produced by a section extractor. -/
structure SectionMk where
  title : String
  text : List Char
deriving DecidableEq, Repr

/-- One entry written to a chunk-collection file by the ingestion script. -/
structure EntryMk where
  title : String
  topic : String
  market : String
  text : List Char
deriving DecidableEq, Repr

/-- Source: `parts.forEach((p, idx) => ...)` with access to the index. -/
def mapIdxFrom {α β : Type} (f : Nat → α → β) : Nat → List α → List β
  | _, [] => []
  | i, a :: as => f i a :: mapIdxFrom f (i + 1) as

/-- SMART-mode chunking of one classified section (main, lines 275–287): a
section at most `maxLen` characters long becomes one entry; a longer one is
split by `splitSmartBySentences`, the `idx`-th part titled
`` `${title} (part ${idx+1})` ``. -/
def chunkSection (maxLen : Nat) (title topic market : String)
    (text : List Char) : List EntryMk :=
  if text.length ≤ maxLen then [⟨title, topic, market, text⟩]
  else
    mapIdxFrom
      (fun idx p => ⟨title ++ " (part " ++ toString (idx + 1) ++ ")", topic, market, p⟩)
      0 (splitSmartBySentences text maxLen)

/-! ### The ingestion script — classifier (`detectTopic`/`detectMarket`,
lines 46–55, over `TOPIC_HINTS`/`MARKET_HINTS` lines 21–32) -/

/-- The `[_\s-]` character class. -/
def classSep (c : Char) : Bool := c = '_' || isWs c || c = '-'

/-- Source: `TOPIC_HINTS` (lines 21–27) as ordered (pattern, label) rules. -/
def topicHints : List (List (List Pat) × String) :=
  [([[Pat.lit "company".data],
     [Pat.lit "step".data, Pat.star classSep, Pat.lit "by".data,
      Pat.star classSep, Pat.lit "step".data],
     [Pat.lit "cr".data], [Pat.lit "trn".data], [Pat.lit "vat".data],
     [Pat.lit "license".data]], "company"),
   ([[Pat.lit "tag".data], [Pat.lit "cuisine".data], [Pat.lit "policy".data],
     [Pat.lit "g1".data], [Pat.lit "g2".data]], "tags"),
   ([[Pat.lit "writing".data], [Pat.lit "capital".data],
     [Pat.lit "custom".data]], "writing"),
   ([[Pat.lit "image".data], [Pat.lit "hero".data], [Pat.lit "1200".data],
     [Pat.lit "1125".data], [Pat.lit "780".data], [Pat.lit "asset".data]],
    "images"),
   ([[Pat.lit "zone".data], [Pat.lit "radius".data],
     [Pat.lit "discovery".data], [Pat.lit "coverage".data]], "zones")]

/-- Source: `MARKET_HINTS` (lines 28–32) as ordered (pattern, label) rules. -/
def marketHints : List (List (List Pat) × String) :=
  [([[Pat.wb, Pat.lit "uae".data], [Pat.lit "dubai".data],
     [Pat.lit "abu".data, Pat.star isWs, Pat.lit "dhabi".data],
     [Pat.lit "sharjah".data], [Pat.lit "ajman".data],
     [Pat.lit "uae".data, Pat.wb]], "AE"),
   ([[Pat.wb, Pat.lit "jordan".data], [Pat.lit "amman".data],
     [Pat.lit "irbid".data], [Pat.lit "zarqa".data],
     [Pat.lit "jo".data, Pat.wb]], "JO"),
   ([[Pat.wb, Pat.lit "ksa".data], [Pat.lit "riyadh".data],
     [Pat.lit "jeddah".data], [Pat.lit "sa".data, Pat.wb]], "SA")]

/-- The source expression `` `${name}\n${text}`.toLowerCase() `` (lines 47, 52). -/
def mkHay (name text : String) : List Char :=
  toLowerL (name.data ++ '\n' :: text.data)

/-- First-match-wins over an ordered rule table. -/
def firstHint (hints : List (List (List Pat) × String)) (dflt : String)
    (hay : List Char) : String :=
  match hints with
  | [] => dflt
  | (pats, label) :: rest =>
    if testPats pats hay then label else firstHint rest dflt hay

/-- Source: `detectTopic(name, text)` from lines 46–50. -/
def detectTopicMk (name text : String) : String :=
  firstHint topicHints "misc" (mkHay name text)

/-- Source: `detectMarket(name, text)` from lines 51–55. -/
def detectMarketMk (name text : String) : String :=
  firstHint marketHints "ALL" (mkHay name text)

/-- The classifier of §4.2: topic and market of one document. -/
def classifyMk (name text : String) : String × String :=
  (detectTopicMk name text, detectMarketMk name text)

/-- The per-file classification pass of the ingestion main loop: each file
`(name, text)` receives the labels `classifyMk name text`, in scan order. -/
def processCorpus (files : List (String × String)) :
    List (String × String × (String × String)) :=
  files.map fun f => (f.1, f.2, classifyMk f.1 f.2)

/-- SMART-mode processing of one extracted section of a file called `name`
(main loop, lines 264–288): classify from the file name and section text,
then chunk under the cap. -/
def processSection (name : String) (maxLen : Nat) (sec : SectionMk) :
    List EntryMk :=
  let market := detectMarketMk name ⟨sec.text⟩
  let topic := detectTopicMk name ⟨sec.text⟩
  chunkSection maxLen sec.title topic market sec.text

/-- All entries a document's section list contributes in SMART mode. -/
def processSections (name : String) (maxLen : Nat) (secs : List SectionMk) :
    List EntryMk :=
  secs.flatMap (processSection name maxLen)

/-! ### `src/knowledgeLoader.js` — JSON flattening and the heading/rule
filters (lines 21–74) -/

/-- Parsed JSON values as far as the loader's walk distinguishes them:
strings, arrays, objects; numbers, booleans and `null` are ignored by the
walk and collapse to `other`. -/
inductive JVal where
  | str : String → JVal
  | arr : List JVal → JVal
  | obj : List (String × JVal) → JVal
  | other : JVal

/-- Split a character list at every occurrence of a separator character. -/
def splitOnCharAux (sep : Char) (cur : List Char) : List Char → List (List Char)
  | [] => [cur.reverse]
  | c :: rest =>
    if c = sep then cur.reverse :: splitOnCharAux sep [] rest
    else splitOnCharAux sep (c :: cur) rest

/-- One string leaf of the walk (lines 45–49): `v.split(/\r?\n/)`, trim each
line, keep the nonempty ones.  Splitting on `\n` alone is equivalent because
a carriage return preceding the newline is whitespace removed by that trim. -/
def explodeString (s : String) : List (List Char) :=
  ((splitOnCharAux '\n' [] s.data).map trimL).filter (· ≠ [])

mutual

/-- Source: `explodeToLines` from lines 41–54: flatten any JSON value into the list
of its trimmed nonempty string-leaf lines, in traversal order (array elements
in order, object values in field order). -/
def explodeToLines : JVal → List (List Char)
  | .str s => explodeString s
  | .arr xs => explodeArr xs
  | .obj fs => explodeObj fs
  | .other => []

def explodeArr : List JVal → List (List Char)
  | [] => []
  | v :: vs => explodeToLines v ++ explodeArr vs

def explodeObj : List (String × JVal) → List (List Char)
  | [] => []
  | f :: fs => explodeToLines f.2 ++ explodeObj fs

end

/-- The `[*•-]` bullet-marker class. -/
def isBullet (c : Char) : Bool := c = '*' || c = '•' || c = '-'

/-- Source: `s.replace(/^\s*[*•-]\s*/, "").trim()` (line 59): drop one leading bullet
marker with its surrounding whitespace; without a marker the replace is a
no-op and only the trim applies. -/
def stripBullet (l : List Char) : List Char :=
  match l.dropWhile isWs with
  | c :: rest => if isBullet c then trimL (rest.dropWhile isWs) else trimL l
  | [] => trimL l

/-- Case-insensitive literal prefix: strip `needle` (given lowercase) from the
front of the input, comparing lowercased characters. -/
def ciPrefix : List Char → List Char → Option (List Char)
  | [], s => some s
  | _ :: _, [] => none
  | n :: ns, c :: cs => if c.toLower = n then ciPrefix ns cs else none

/-- Match `\b kw \s* \d+ \b` (the `slide`/`page` alternatives of the meta
regex, line 61) at the current position; `prev` is the preceding character.
Greedy `\s*`/`\d+` with the trailing `\b` is exact: no backtracking split can
succeed when the greedy one fails.  Returns the match length. -/
def matchKwNum (kw : List Char) (prev : Option Char) (s : List Char) :
    Option Nat :=
  let prevNonWord := match prev with | some p => !isWordChar p | none => true
  if !prevNonWord then none
  else
    match ciPrefix kw s with
    | none => none
    | some rest1 =>
      let w := rest1.takeWhile isWs
      let rest2 := rest1.dropWhile isWs
      let d := rest2.takeWhile isDigitC
      if d.isEmpty then none
      else
        let rest3 := rest2.drop d.length
        let nextOk := match rest3 with | c :: _ => !isWordChar c | [] => true
        if nextOk then some (kw.length + w.length + d.length) else none

/-- The extension alternation `(pptx?|pdf|docx?)` in the order the regex
engine tries it (greedy optional character first). -/
def extList : List (List Char) :=
  ["pptx".data, "ppt".data, "pdf".data, "docx".data, "doc".data]

/-- Try each extension at the current position, requiring the `\b` after it. -/
def extMatchAux : List (List Char) → List Char → Option Nat
  | [], _ => none
  | e :: es, t =>
    match ciPrefix e t with
    | some rest =>
      let nextOk := match rest with | c :: _ => !isWordChar c | [] => true
      if nextOk then some e.length else extMatchAux es t
    | none => extMatchAux es t

/-- Backtracking of the greedy `\S+` of `\b\S+\.(pptx?|pdf|docx?)\b`: try the
dot at index `j`, `j-1`, …, `1` of `s` and return the full match length. -/
def tryDots (s : List Char) : Nat → Option Nat
  | 0 => none
  | j + 1 =>
    match s.drop (j + 1) with
    | c :: rest2 =>
      if c = '.' then
        match extMatchAux extList rest2 with
        | some e => some (j + 1 + 1 + e)
        | none => tryDots s j
      else tryDots s j
    | [] => tryDots s j

/-- Match `\b\S+\.(pptx?|pdf|docx?)\b` at the current position: a word
boundary against `prev`, then a nonempty non-space run whose greedy extent is
backtracked to the last position followed by `.` and a document extension. -/
def matchFileTok (prev : Option Char) (s : List Char) : Option Nat :=
  match s with
  | [] => none
  | c0 :: _ =>
    if isWs c0 then none
    else
      let pw := match prev with | some p => isWordChar p | none => false
      if pw = isWordChar c0 then none
      else tryDots s ((s.takeWhile fun c => !isWs c).length - 1)

/-- One attempt of the whole meta regex
`/\bslide\s*\d+\b|\bpage\s*\d+\b|\b\S+\.(pptx?|pdf|docx?)\b/gi` at the
current position, alternatives in source order. -/
def matchMetaAt (prev : Option Char) (s : List Char) : Option Nat :=
  match matchKwNum "slide".data prev s with
  | some n => some n
  | none =>
    match matchKwNum "page".data prev s with
    | some n => some n
    | none => matchFileTok prev s

/-- Global replace of the meta regex with the empty string: scan left to
right, removing each leftmost match and resuming after it (`prev` tracks the
character preceding the scan position in the original string).  `fuel` bounds
the scan; the string length always suffices since every step consumes at
least one character. -/
def metaStripF : Nat → Option Char → List Char → List Char
  | 0, _, s => s
  | _ + 1, _, [] => []
  | fuel + 1, prev, c :: rest =>
    match matchMetaAt prev (c :: rest) with
    | some n => metaStripF fuel (((c :: rest).take n).getLast?) ((c :: rest).drop n)
    | none => c :: metaStripF fuel (some c) rest

/-- Source: `s.replace(/\bslide\s*\d+\b|\bpage\s*\d+\b|\b\S+\.(pptx?|pdf|docx?)\b/gi, "").trim()`
(line 61). -/
def stripMeta (l : List Char) : List Char := trimL (metaStripF l.length none l)

/-- Maximal non-whitespace tokens (`t.split(/\s+/)` on trimmed nonempty `t`). -/
def wsTokensAux (cur : List Char) : List Char → List (List Char)
  | [] => if cur.isEmpty then [] else [cur.reverse]
  | c :: rest =>
    if isWs c then
      if cur.isEmpty then wsTokensAux [] rest
      else cur.reverse :: wsTokensAux [] rest
    else wsTokensAux (c :: cur) rest

def wsTokens (l : List Char) : List (List Char) := wsTokensAux [] l

/-- One word of the title-case pattern: `[A-Z][A-Za-z0-9]+`. -/
def isTitleWord : List Char → Bool
  | [] => false
  | c :: rest => c.isUpper && !rest.isEmpty && rest.all (fun d => d.isAlphanum)

/-- Source: `/^[A-Z][A-Za-z0-9]+(?:\s+[A-Z][A-Za-z0-9]+)*$/.test(t)` (line 26). -/
def looksTitleCase (t : List Char) : Bool :=
  let ws := wsTokens t
  !ws.isEmpty && ws.all isTitleWord

/-- Source: `/^[*•-]\s*$/.test(t)` (line 31). -/
def bareBullet : List Char → Bool
  | c :: rest => isBullet c && rest.all isWs
  | [] => false

/-- Source: `isHeading` from lines 21–33: empty, short, few-word, title-case or
bare-bullet lines count as headings. -/
def isHeading (s : List Char) : Bool :=
  let t := trimL s
  if t.isEmpty then true
  else
    decide (t.length < 35) || decide ((wsTokens t).length ≤ 4) ||
      looksTitleCase t || bareBullet t

/-- The keyword alternation of `isRuleLike` (line 38), lowercased; the
optional `s` of `dimensions?` is irrelevant to a substring test. -/
def ruleKws : List String :=
  ["must", "should", "required", "don’t", "do not", "avoid", "use", "set",
   "add", "choose", "is", "are", "dimension", "size", "1200", "1125", "780",
   "cr", "tl", "vat", "tax", "tags"]

/-- Source: `isRuleLike` from lines 34–39: at least 40 characters, ends in terminal
punctuation, and contains one of the policy keywords (case-insensitive). -/
def isRuleLike (s : List Char) : Bool :=
  let t := trimL s
  if t.length < 40 then false
  else if !(match t.getLast? with | some c => isPunct c | none => false) then
    false
  else
    let lt := toLowerL t
    ruleKws.any fun k => isInfixL k.data lt

/-- The chunk record built at lines 68–73:
`{ title: filename, market: "ALL", topic: fallbackTopic, text: t }`. -/
def mkLoaderChunk (filename fallbackTopic : String) (t : List Char) : Chunk :=
  ⟨filename, "ALL", fallbackTopic, ⟨t⟩⟩

/-- The processed line set of one file (lines 57–63): explode, strip bullet
markers, strip slide/page/file meta, drop heading-like lines. -/
def loaderLines (json : JVal) : List (List Char) :=
  (((explodeToLines json).map stripBullet).map stripMeta).filter
    fun s => !isHeading s

/-- Source: `normalizeFileToChunks` from lines 56–74: prefer the rule-like lines,
falling back to the whole (heading-filtered) line set when none qualify. -/
def normalizeFileToChunks (json : JVal) (fallbackTopic filename : String) :
    List Chunk :=
  let lines := loaderLines json
  let rules := lines.filter isRuleLike
  let texts := if rules.isEmpty then lines else rules
  texts.map (mkLoaderChunk filename fallbackTopic)

/-- Source: `guessTopicFromName` from lines 76–84. -/
def guessTopicFromName (name : String) : String :=
  let n := toLowerS name
  if containsSub n "company" then "company"
  else if containsSub n "tags_guideline" || containsSub n "tags_sop" ||
      containsSub n "tags" then "tags"
  else if containsSub n "writing" then "writing"
  else if containsSub n "image" then "images"
  else if containsSub n "zone" then "zones"
  else "misc"

/-- One candidate file of the `getKnowledge` scan: its name (standing for
both the dedup key — the full path — and the basename used for title and
topic) and its parse result; `parsed = none` models `safeReadJSON` returning
`null` (unreadable or unparseable content, lines 16–19). -/
structure FileEntry where
  name : String
  parsed : Option JVal

/-- The file loop of `getKnowledge` (lines 92–109): skip names already seen,
record the name, skip files that did not parse, and append the normalized
chunks of the rest. -/
def loadLoop (seen : List String) : List FileEntry → List Chunk
  | [] => []
  | f :: fs =>
    if f.name ∈ seen then loadLoop seen fs
    else
      match f.parsed with
      | none => loadLoop (f.name :: seen) fs
      | some j =>
        normalizeFileToChunks j (guessTopicFromName f.name) f.name ++
          loadLoop (f.name :: seen) fs

/-- Source: `getKnowledge` from lines 86–114 over the flattened candidate-file list
(the cache only memoizes this value). -/
def getKnowledgeM (files : List FileEntry) : List Chunk := loadLoop [] files

/-! ### The alternate rag module — dedup-and-select (its `buildAnswer`,
lines 42–68) -/

/-- Source: `line.toLowerCase().replace(/\W+/g, " ")`: collapse every run of
non-word characters to a single space (`prevNW` marks being inside a run). -/
def collapseNW (prevNW : Bool) : List Char → List Char
  | [] => []
  | c :: rest =>
    if isWordChar c then c :: collapseNW false rest
    else if prevNW then collapseNW true rest
    else ' ' :: collapseNW true rest

/-- The normalized dedup key of line 52:
`line.toLowerCase().replace(/\W+/g, " ").trim()`. -/
def normKey (s : String) : String := ⟨trimL (collapseNW false (toLowerL s.data))⟩

/-- The selection loop of lines 49–57: walk the candidate lines, skip those
whose key was seen, keep the rest, and stop once 3 lines are chosen
(`slots` counts the remaining places). -/
def selLoop (seen : List String) : Nat → List String → List String
  | _, [] => []
  | 0, _ => []
  | slots + 1, l :: ls =>
    if normKey l ∈ seen then selLoop seen (slots + 1) ls
    else l :: selLoop (normKey l :: seen) slots ls

/-- Select the first 3 distinct lines by normalized key. -/
def chooseLines (top : List String) : List String := selLoop [] 3 top

/-- The dedup-and-select step of the alternate `buildAnswer` (lines 46–57):
the texts of the 12 top-ranked chunks, deduplicated, first 3 kept. -/
def dedupSelect (ranked : List (Chunk × Int)) : List String :=
  chooseLines ((ranked.take 12).map fun r => r.1.text)

/-! ### Ranking helpers -/

/-- For a two-chunk store, a strictly higher score puts a chunk first in the
`scoreChunks` output, whichever the input order: `insertionSort` with the
descending-score relation keeps the higher-scored pair in front. -/
theorem rankPair (q mp : String) (x y : Chunk)
    (h : scoreChunk q mp y < scoreChunk q mp x) :
    (scoreChunks q [x, y] mp).map Prod.fst = [x, y] ∧
    (scoreChunks q [y, x] mp).map Prod.fst = [x, y] := by
  have hle : scoreChunk q mp y ≤ scoreChunk q mp x := le_of_lt h
  have hnot : ¬ scoreChunk q mp x ≤ scoreChunk q mp y := not_le.mpr h
  constructor <;>
    simp [scoreChunks, List.insertionSort, List.orderedInsert, hle, hnot]

/-! ### Claims -/

/-- C1 (amended): with an empty knowledge store, `buildAnswer` returns exactly
the fixed refusal text with an empty source list; however, the external
generation step is not gated on chunk availability — `answerOne` invokes it
exactly when `forceRAG` is unset and AI is enabled, even when the store holds
zero chunks. -/
theorem C1_empty_store_refusal_and_generator_gate
    (question marketPref message market : String) (forceRAG aiEnabled : Bool)
    (aiResponse : Option String) :
    buildAnswer [] question marketPref = ⟨refusalText, []⟩ ∧
    (answerOne [] message market forceRAG aiEnabled aiResponse).generatorInvoked
      = (!forceRAG && aiEnabled) := by
  exact ⟨rfl, rfl⟩

/-- C1 counterexample: the store holds zero chunks, AI is enabled and
`forceRAG` is unset, yet `answerOne` still invokes the external generator —
refuting "the external generation step is never invoked for that request". -/
theorem C1_counterexample :
    (answerOne [] "hello" "AUTO" false true none).generatorInvoked = true := rfl

/-- C2: for two chunks identical in every field except that one has market
`"JO"` and the other `"ALL"`, and any query with marketPreference `"JO"`,
`scoreChunks` gives the JO chunk a strictly higher score (exact-market bonus
40 vs broad-market bonus 10), so it ranks strictly above the ALL chunk. -/
theorem C2_jo_outranks_all (question title topic text : String) :
    scoreChunk question "JO" ⟨title, "ALL", topic, text⟩ <
      scoreChunk question "JO" ⟨title, "JO", topic, text⟩ ∧
    (scoreChunks question
        [⟨title, "JO", topic, text⟩, ⟨title, "ALL", topic, text⟩] "JO").map
        Prod.fst =
      [⟨title, "JO", topic, text⟩, ⟨title, "ALL", topic, text⟩] ∧
    (scoreChunks question
        [⟨title, "ALL", topic, text⟩, ⟨title, "JO", topic, text⟩] "JO").map
        Prod.fst =
      [⟨title, "JO", topic, text⟩, ⟨title, "ALL", topic, text⟩] := by
  have hlev : levPart question (⟨title, "ALL", topic, text⟩ : Chunk) =
      levPart question (⟨title, "JO", topic, text⟩ : Chunk) := rfl
  have htop : topicPart question (⟨title, "ALL", topic, text⟩ : Chunk) =
      topicPart question (⟨title, "JO", topic, text⟩ : Chunk) := rfl
  have hmJO : marketPart "JO" (⟨title, "JO", topic, text⟩ : Chunk) = 40 := by
    simp [marketPart, toUpperS, toUpperL]
  have hmALL : marketPart "JO" (⟨title, "ALL", topic, text⟩ : Chunk) = 10 := by
    simp [marketPart, toUpperS, toUpperL]
  have hlt : scoreChunk question "JO" ⟨title, "ALL", topic, text⟩ <
      scoreChunk question "JO" ⟨title, "JO", topic, text⟩ := by
    simp only [scoreChunk, hlev, htop, hmJO, hmALL]
    omega
  exact ⟨hlt, rankPair question "JO" _ _ hlt⟩

/-- C3: for two chunks with the same market and text whose topics are
canonical labels, where one topic equals the topic the classifier assigns to
the query (`detectTopic` of the lowercased question, exactly the value
rag.js compares against) and the other does not, the topic-matching chunk
scores strictly higher (+20 topic bonus) and ranks strictly above the other. -/
theorem C3_topic_match_outranks
    (question mpref title1 title2 mk text t1 t2 : String)
    (h1 : t1 ∈ topicLabels) (h2 : t2 ∈ topicLabels)
    (heq : t1 = detectTopic (toLowerS question))
    (hne : t2 ≠ detectTopic (toLowerS question)) :
    scoreChunk question mpref ⟨title2, mk, t2, text⟩ <
      scoreChunk question mpref ⟨title1, mk, t1, text⟩ ∧
    (scoreChunks question
        [⟨title1, mk, t1, text⟩, ⟨title2, mk, t2, text⟩] mpref).map Prod.fst =
      [⟨title1, mk, t1, text⟩, ⟨title2, mk, t2, text⟩] ∧
    (scoreChunks question
        [⟨title2, mk, t2, text⟩, ⟨title1, mk, t1, text⟩] mpref).map Prod.fst =
      [⟨title1, mk, t1, text⟩, ⟨title2, mk, t2, text⟩] := by
  subst heq
  have hd := detectTopic_mem (toLowerS question)
  simp only [topicLabels, List.mem_cons, List.not_mem_nil, or_false] at hd h2
  have key : topicPart question (⟨title2, mk, t2, text⟩ : Chunk) <
      topicPart question
        (⟨title1, mk, detectTopic (toLowerS question), text⟩ : Chunk) := by
    rcases hd with h|h|h|h|h|h <;> rw [h] at hne ⊢ <;>
      rcases h2 with rfl|rfl|rfl|rfl|rfl|rfl <;>
      simp only [topicPart, h] <;> first
        | exact absurd rfl hne
        | decide
  have hlev : levPart question (⟨title2, mk, t2, text⟩ : Chunk) =
      levPart question
        (⟨title1, mk, detectTopic (toLowerS question), text⟩ : Chunk) := rfl
  have hm : marketPart mpref (⟨title2, mk, t2, text⟩ : Chunk) =
      marketPart mpref
        (⟨title1, mk, detectTopic (toLowerS question), text⟩ : Chunk) := rfl
  have hlt : scoreChunk question mpref ⟨title2, mk, t2, text⟩ <
      scoreChunk question mpref
        ⟨title1, mk, detectTopic (toLowerS question), text⟩ := by
    simp only [scoreChunk, hlev, hm]
    omega
  exact ⟨hlt, rankPair question mpref _ _ hlt⟩

/-- C3 witness: a concrete query classified `"images"`, one chunk with topic
`"images"` and one with topic `"tags"`. -/
theorem C3_witness :
    ("images" ∈ topicLabels ∧ "tags" ∈ topicLabels ∧
      "images" = detectTopic (toLowerS "what image size") ∧
      "tags" ≠ detectTopic (toLowerS "what image size")) ∧
    scoreChunk "what image size" "AUTO" ⟨"b", "ALL", "tags", "x"⟩ <
      scoreChunk "what image size" "AUTO" ⟨"a", "ALL", "images", "x"⟩ :=
  ⟨⟨by decide, by decide, by decide, by decide⟩,
    (C3_topic_match_outranks "what image size" "AUTO" "a" "b" "ALL" "x"
      "images" "tags" (by decide) (by decide) (by decide) (by decide)).1⟩

/-- C6: the ingestion classifier is a pure function of its inputs: the
(topic, market) labels recorded for a file during the corpus pass are exactly
`classifyMk name text`, whatever files precede or follow it — so two corpus
passes containing the same (filename, text) assign it identical labels,
independent of scan order or surrounding state. -/
theorem C6_classifier_pure (pre1 post1 pre2 post2 : List (String × String))
    (name text : String) :
    (processCorpus (pre1 ++ (name, text) :: post1))[pre1.length]? =
      some (name, text, classifyMk name text) ∧
    (processCorpus (pre1 ++ (name, text) :: post1))[pre1.length]? =
      (processCorpus (pre2 ++ (name, text) :: post2))[pre2.length]? := by
  have h : ∀ (pre post : List (String × String)),
      (processCorpus (pre ++ (name, text) :: post))[pre.length]? =
        some (name, text, classifyMk name text) := by
    intro pre post
    simp only [processCorpus, List.map_append, List.map_cons]
    rw [List.getElem?_append_right (by simp)]
    simp
  exact ⟨h pre1 post1, (h pre1 post1).trans (h pre2 post2).symm⟩

/-- The selection loop returns at most `slots` lines, all with keys outside
`seen` and pairwise-distinct keys. -/
theorem selLoop_props (xs : List String) :
    ∀ (seen : List String) (slots : Nat),
      (selLoop seen slots xs).length ≤ slots ∧
      (∀ l ∈ selLoop seen slots xs, normKey l ∉ seen) ∧
      (selLoop seen slots xs).Pairwise fun a b => normKey a ≠ normKey b := by
  induction xs with
  | nil => intro seen slots; simp [selLoop]
  | cons l ls ih =>
    intro seen slots
    match slots with
    | 0 => simp [selLoop]
    | slots + 1 =>
      by_cases hk : normKey l ∈ seen
      · simpa [selLoop, hk] using ih seen (slots + 1)
      · have ihx := ih (normKey l :: seen) slots
        refine ⟨?_, ?_, ?_⟩
        · simpa [selLoop, hk] using Nat.succ_le_succ ihx.1
        · intro x hx
          simp only [selLoop, hk, if_false, List.mem_cons] at hx
          rcases hx with rfl | hx
          · exact hk
          · have := ihx.2.1 x hx
            simp only [List.mem_cons] at this
            exact fun hs => this (Or.inr hs)
        · simp only [selLoop, hk, if_false, List.pairwise_cons]
          refine ⟨?_, ihx.2.2⟩
          intro x hx
          have := ihx.2.1 x hx
          simp only [List.mem_cons] at this
          exact fun he => this (Or.inl he.symm)

/-- A list that is short enough, fresh for `seen`, and key-distinct is a
fixed point of the selection loop. -/
theorem selLoop_fixed (ys : List String) :
    ∀ (seen : List String) (slots : Nat), ys.length ≤ slots →
      (∀ l ∈ ys, normKey l ∉ seen) →
      ys.Pairwise (fun a b => normKey a ≠ normKey b) →
      selLoop seen slots ys = ys := by
  induction ys with
  | nil => intro seen slots _ _ _; cases slots <;> rfl
  | cons l ls ih =>
    intro seen slots hlen hfresh hpw
    match slots with
    | 0 => simp at hlen
    | slots + 1 =>
      have hk : normKey l ∉ seen := hfresh l (by simp)
      rw [List.pairwise_cons] at hpw
      simp only [selLoop, hk, if_false]
      congr 1
      refine ih (normKey l :: seen) slots (by simpa using hlen) ?_ hpw.2
      intro x hx
      simp only [List.mem_cons, not_or]
      exact ⟨fun he => hpw.1 x hx he.symm, hfresh x (List.mem_cons_of_mem _ hx)⟩

/-- C9: the Answer Assembler's dedup-and-select step is deterministic (it is
a function) and idempotent: for every ranked list, re-selecting from the
already-selected lines returns them unchanged, and at most 3 lines are ever
selected, in rank order. -/
theorem C9_dedup_select_idempotent (ranked : List (Chunk × Int)) :
    chooseLines (dedupSelect ranked) = dedupSelect ranked ∧
    (dedupSelect ranked).length ≤ 3 := by
  have hp := selLoop_props ((ranked.take 12).map fun r => r.1.text) [] 3
  refine ⟨?_, hp.1⟩
  exact selLoop_fixed _ [] 3 hp.1 (by simp) hp.2.2

/-- C7: per loaded file, if the rule-like filter leaves zero fragments the
loader falls back to the whole (heading-filtered) line set of that file, and
a file with any surviving content lines never contributes zero chunks. -/
theorem C7_rule_filter_fallback (json : JVal) (topic filename : String) :
    ((loaderLines json).filter isRuleLike = [] →
      normalizeFileToChunks json topic filename =
        (loaderLines json).map (mkLoaderChunk filename topic)) ∧
    (loaderLines json ≠ [] →
      normalizeFileToChunks json topic filename ≠ []) := by
  constructor
  · intro h
    simp [normalizeFileToChunks, h]
  · intro h
    rcases hq : (loaderLines json).filter isRuleLike with _ | ⟨r, rs⟩
    · simpa [normalizeFileToChunks, hq] using h
    · simp [normalizeFileToChunks, hq]

/-- C7 witness: a single long, unpunctuated line — not a heading, yet not
rule-like, so the fallback branch fires and the file still yields a chunk. -/
theorem C7_witness :
    ((loaderLines (JVal.str
        "Alpha beta gamma delta epsilon zeta eta theta iota words")).filter
          isRuleLike = [] ∧
      loaderLines (JVal.str
        "Alpha beta gamma delta epsilon zeta eta theta iota words") ≠ []) ∧
    (normalizeFileToChunks (JVal.str
        "Alpha beta gamma delta epsilon zeta eta theta iota words") "misc"
        "f.json" =
      (loaderLines (JVal.str
        "Alpha beta gamma delta epsilon zeta eta theta iota words")).map
        (mkLoaderChunk "f.json" "misc") ∧
      normalizeFileToChunks (JVal.str
        "Alpha beta gamma delta epsilon zeta eta theta iota words") "misc"
        "f.json" ≠ []) :=
  ⟨⟨by decide, by decide⟩,
    (C7_rule_filter_fallback (JVal.str
      "Alpha beta gamma delta epsilon zeta eta theta iota words") "misc"
      "f.json").1 (by decide),
    (C7_rule_filter_fallback (JVal.str
      "Alpha beta gamma delta epsilon zeta eta theta iota words") "misc"
      "f.json").2 (by decide)⟩

/-- The load loop only consults `seen` through name membership. -/
theorem loadLoop_congr (fs : List FileEntry) :
    ∀ (seen1 seen2 : List String),
      (∀ g ∈ fs, (g.name ∈ seen1 ↔ g.name ∈ seen2)) →
      loadLoop seen1 fs = loadLoop seen2 fs := by
  induction fs with
  | nil => intro _ _ _; rfl
  | cons g gs ih =>
    intro seen1 seen2 hiff
    have hg := hiff g (by simp)
    by_cases hm : g.name ∈ seen1
    · simp only [loadLoop, if_pos hm, if_pos (hg.mp hm)]
      exact ih _ _ fun x hx => hiff x (List.mem_cons_of_mem _ hx)
    · have hm2 : g.name ∉ seen2 := fun h => hm (hg.mpr h)
      simp only [loadLoop, if_neg hm, if_neg hm2]
      have hrec : loadLoop (g.name :: seen1) gs = loadLoop (g.name :: seen2) gs := by
        refine ih _ _ fun x hx => ?_
        simp only [List.mem_cons]
        exact or_congr Iff.rfl (hiff x (List.mem_cons_of_mem _ hx))
      cases g.parsed with
      | none => exact hrec
      | some j => rw [hrec]

/-- A loop pass over files that all failed to parse yields no chunks. -/
theorem loadLoop_allbad (fs : List FileEntry) :
    ∀ seen : List String, (∀ g ∈ fs, g.parsed = none) →
      loadLoop seen fs = [] := by
  induction fs with
  | nil => intro _ _; rfl
  | cons g gs ih =>
    intro seen hbad
    have hg : g.parsed = none := hbad g (by simp)
    have hrest : ∀ x ∈ gs, x.parsed = none :=
      fun x hx => hbad x (List.mem_cons_of_mem _ hx)
    by_cases hm : g.name ∈ seen
    · simpa only [loadLoop, if_pos hm] using ih seen hrest
    · simpa only [loadLoop, if_neg hm, hg] using ih (g.name :: seen) hrest

/-- C8: a file whose content fails to parse contributes zero chunks and does
not abort the load — removing it (when nothing later shares its path) leaves
`getKnowledge`'s result unchanged, all parseable files still being normalized
and included; and a corpus of only unparseable files yields the empty list, a
valid return value. -/
theorem C8_unparseable_skipped (pre post allbad : List FileEntry)
    (f : FileEntry) (hf : f.parsed = none)
    (hpost : ∀ g ∈ post, g.name ≠ f.name)
    (hbad : ∀ g ∈ allbad, g.parsed = none) :
    getKnowledgeM (pre ++ f :: post) = getKnowledgeM (pre ++ post) ∧
    getKnowledgeM allbad = [] := by
  refine ⟨?_, loadLoop_allbad allbad [] hbad⟩
  have main : ∀ (p : List FileEntry) (seen : List String),
      loadLoop seen (p ++ f :: post) = loadLoop seen (p ++ post) := by
    intro p
    induction p with
    | nil =>
      intro seen
      by_cases hm : f.name ∈ seen
      · simp only [List.nil_append, loadLoop, if_pos hm]
      · simp only [List.nil_append, loadLoop, if_neg hm, hf]
        refine loadLoop_congr post _ _ fun x hx => ?_
        simp only [List.mem_cons]
        have := hpost x hx
        constructor
        · rintro (h | h)
          · exact absurd h this
          · exact h
        · exact Or.inr
    | cons g gs ih =>
      intro seen
      by_cases hm : g.name ∈ seen
      · simp only [List.cons_append, loadLoop, if_pos hm]
        exact ih seen
      · simp only [List.cons_append, loadLoop, if_neg hm]
        cases g.parsed <;> simp [ih (g.name :: seen)]
  exact main pre []

/-- C8 witness: a good file, a bad file, a second good file; removing the bad
file leaves the corpus unchanged, and an all-bad corpus is empty. -/
theorem C8_witness :
    ((⟨"bad.json", none⟩ : FileEntry).parsed = none ∧
      (∀ g ∈ [(⟨"b.json", some (JVal.str "hello")⟩ : FileEntry)],
        g.name ≠ (⟨"bad.json", none⟩ : FileEntry).name) ∧
      (∀ g ∈ [(⟨"x.json", none⟩ : FileEntry), ⟨"y.json", none⟩],
        g.parsed = none)) ∧
    getKnowledgeM
        [⟨"a.json", some (JVal.str "hi")⟩, ⟨"bad.json", none⟩,
         ⟨"b.json", some (JVal.str "hello")⟩] =
      getKnowledgeM
        [⟨"a.json", some (JVal.str "hi")⟩,
         ⟨"b.json", some (JVal.str "hello")⟩] ∧
    getKnowledgeM [⟨"x.json", none⟩, ⟨"y.json", none⟩] = [] := by
  have h1 : (⟨"bad.json", none⟩ : FileEntry).parsed = none := rfl
  have h2 : ∀ g ∈ [(⟨"b.json", some (JVal.str "hello")⟩ : FileEntry)],
      g.name ≠ (⟨"bad.json", none⟩ : FileEntry).name := by
    intro g hg
    rw [List.mem_singleton] at hg
    subst hg
    decide
  have h3 : ∀ g ∈ [(⟨"x.json", none⟩ : FileEntry), ⟨"y.json", none⟩],
      g.parsed = none := by
    intro g hg
    rcases List.mem_cons.mp hg with rfl | hg
    · rfl
    · rw [List.mem_singleton] at hg; subst hg; rfl
  exact ⟨⟨h1, h2, h3⟩,
    C8_unparseable_skipped [⟨"a.json", some (JVal.str "hi")⟩]
      [⟨"b.json", some (JVal.str "hello")⟩] _ _ h1 h2 h3⟩

/-- A line surviving the heading filter is nonempty. -/
theorem isHeading_false_ne_nil {t : List Char} (h : isHeading t = false) :
    t ≠ [] := by
  intro he
  subst he
  simp [isHeading, trimL] at h

/-- Every chunk one file contributes has market `"ALL"`, the filename as
title, and nonempty text. -/
theorem normalize_mem {json : JVal} {topic filename : String} {c : Chunk}
    (hc : c ∈ normalizeFileToChunks json topic filename) :
    c.market = "ALL" ∧ c.title = filename ∧ c.text ≠ "" := by
  simp only [normalizeFileToChunks, List.mem_map] at hc
  obtain ⟨t, ht, rfl⟩ := hc
  have hline : t ∈ loaderLines json := by
    by_cases hr : ((loaderLines json).filter isRuleLike).isEmpty <;>
      simp only [hr, if_true, if_false] at ht
    · exact ht
    · exact (List.mem_filter.mp ht).1
  have hhead : isHeading t = false := by
    have := (List.mem_filter.mp hline).2
    simpa using this
  have htne : t ≠ [] := isHeading_false_ne_nil hhead
  refine ⟨rfl, rfl, ?_⟩
  simp only [mkLoaderChunk, ne_eq, String.ext_iff]
  exact htne

/-- A chunk whose market is `"ALL"` receives the broad-market bonus `10`, not
the exact-market bonus, for every requested market other than `"ALL"`. -/
theorem marketPart_all_chunk {c : Chunk} (hm : c.market = "ALL")
    (mpref : String) (h : toUpperS mpref ≠ "ALL") : marketPart mpref c = 10 := by
  by_cases he : mpref = ""
  · subst he
    simp [marketPart, hm]
    decide
  · simp only [marketPart, hm, if_neg he]
    have hall : toUpperS (if ("ALL" : String) = "" then "ALL" else "ALL") =
        "ALL" := by decide
    simp only [if_neg (by decide : ¬ ("ALL" : String) = "")]
    rw [if_neg, if_pos]
    · left; decide
    · intro hcon
      exact h (by rw [← hcon]; decide)

/-- C10: every chunk the shipped Knowledge Store loader returns has market
`"ALL"`, a loaded file's name as title, and nonempty text; hence for every
query whose requested market is not `"ALL"`, the exact-market bonus is never
triggered by any loader-produced chunk — its market contribution is the broad
bonus `10`. -/
theorem C10_loader_chunks_all_market (files : List FileEntry) (c : Chunk)
    (hc : c ∈ getKnowledgeM files) :
    c.market = "ALL" ∧ (∃ f ∈ files, c.title = f.name) ∧ c.text ≠ "" ∧
    ∀ mpref : String, toUpperS mpref ≠ "ALL" → marketPart mpref c = 10 := by
  have main : ∀ (fs : List FileEntry) (seen : List String),
      c ∈ loadLoop seen fs →
      c.market = "ALL" ∧ (∃ f ∈ fs, c.title = f.name) ∧ c.text ≠ "" := by
    intro fs
    induction fs with
    | nil => intro seen h; simp [loadLoop] at h
    | cons g gs ih =>
      intro seen h
      by_cases hm : g.name ∈ seen
      · rw [loadLoop, if_pos hm] at h
        obtain ⟨h1, ⟨f, hf, h2⟩, h3⟩ := ih seen h
        exact ⟨h1, ⟨f, List.mem_cons_of_mem _ hf, h2⟩, h3⟩
      · rw [loadLoop, if_neg hm] at h
        cases hp : g.parsed with
        | none =>
          rw [hp] at h
          obtain ⟨h1, ⟨f, hf, h2⟩, h3⟩ := ih (g.name :: seen) h
          exact ⟨h1, ⟨f, List.mem_cons_of_mem _ hf, h2⟩, h3⟩
        | some j =>
          rw [hp] at h
          rcases List.mem_append.mp h with hin | hin
          · obtain ⟨h1, h2, h3⟩ := normalize_mem hin
            exact ⟨h1, ⟨g, by simp, h2⟩, h3⟩
          · obtain ⟨h1, ⟨f, hf, h2⟩, h3⟩ := ih (g.name :: seen) hin
            exact ⟨h1, ⟨f, List.mem_cons_of_mem _ hf, h2⟩, h3⟩
  obtain ⟨h1, h2, h3⟩ := main files [] hc
  exact ⟨h1, h2, h3, fun mpref hmp => marketPart_all_chunk h1 mpref hmp⟩

/-- C10 witness: a one-file corpus and its single produced chunk. -/
theorem C10_witness :
    ((⟨"f.json", "ALL", "misc",
        "Item names must be written in Title Case style everywhere."⟩ : Chunk) ∈
      getKnowledgeM [⟨"f.json", some (JVal.str
        "Item names must be written in Title Case style everywhere.")⟩] ∧
      toUpperS "AE" ≠ "ALL") ∧
    ((⟨"f.json", "ALL", "misc",
        "Item names must be written in Title Case style everywhere."⟩ : Chunk).market
      = "ALL" ∧
     marketPart "AE"
        ⟨"f.json", "ALL", "misc",
          "Item names must be written in Title Case style everywhere."⟩ = 10) := by
  have hmem : (⟨"f.json", "ALL", "misc",
      "Item names must be written in Title Case style everywhere."⟩ : Chunk) ∈
      getKnowledgeM [⟨"f.json", some (JVal.str
        "Item names must be written in Title Case style everywhere.")⟩] := by
    decide
  have hth := C10_loader_chunks_all_market
    [⟨"f.json", some (JVal.str
      "Item names must be written in Title Case style everywhere.")⟩] _ hmem
  exact ⟨⟨hmem, by decide⟩, hth.1, hth.2.2.2 "AE" (by decide)⟩

/-! ### Chunker invariants (claim C4) -/

/-- Trimming yields the empty list exactly for all-whitespace input. -/
theorem trimL_eq_nil_iff {l : List Char} :
    trimL l = [] ↔ ∀ c ∈ l, isWs c = true := by
  simp only [trimL, List.reverse_eq_nil_iff, List.dropWhile_eq_nil_iff,
    List.mem_reverse]
  constructor
  · intro h c hc
    have := List.takeWhile_append_dropWhile isWs l
    rw [← this] at hc
    rcases List.mem_append.mp hc with hc | hc
    · exact List.mem_takeWhile_imp hc
    · exact h c hc
  · intro h c hc
    exact h c ((List.dropWhile_sublist isWs).mem hc)

/-- Trimming never lengthens a list. -/
theorem trimL_length_le (l : List Char) : (trimL l).length ≤ l.length := by
  simp only [trimL, List.length_reverse]
  calc ((l.dropWhile isWs).reverse.dropWhile isWs).length
      ≤ (l.dropWhile isWs).reverse.length :=
        (List.dropWhile_sublist isWs).length_le
    _ = (l.dropWhile isWs).length := List.length_reverse _
    _ ≤ l.length := (List.dropWhile_sublist isWs).length_le

/-- Every part the accumulation loop emits is within the cap, or is the
trimmed buffer, or is a trimmed input sentence. -/
theorem smartLoop_parts (maxChars : Nat) (ss : List (List Char)) :
    ∀ (buf : List Char), ∀ p ∈ smartLoop maxChars buf ss,
      p.length ≤ maxChars ∨ p = trimL buf ∨ ∃ s ∈ ss, p = trimL s := by
  induction ss with
  | nil =>
    intro buf p hp
    simp only [smartLoop] at hp
    split at hp <;> simp at hp
    exact Or.inr (Or.inl hp)
  | cons s ss ih =>
    intro buf p hp
    simp only [smartLoop] at hp
    split at hp
    · rcases List.mem_append.mp hp with hp | hp
      · split at hp <;> simp at hp
        exact Or.inr (Or.inl hp)
      · rcases ih s p hp with h | h | ⟨s', hs', h⟩
        · exact Or.inl h
        · exact Or.inr (Or.inr ⟨s, by simp, h⟩)
        · exact Or.inr (Or.inr ⟨s', List.mem_cons_of_mem _ hs', h⟩)
    · next hgt =>
      rcases ih _ p hp with h | h | ⟨s', hs', h⟩
      · exact Or.inl h
      · left
        rw [h]
        refine le_trans (trimL_length_le _) ?_
        have hle := Nat.le_of_not_lt hgt
        split
        · next hb =>
          subst hb
          simpa using Nat.le_of_succ_le (by simpa using hle)
        · exact hle
      · exact Or.inr (Or.inr ⟨s', List.mem_cons_of_mem _ hs', h⟩)

/-- If the accumulation loop emits nothing, the buffer and every remaining
sentence are all-whitespace. -/
theorem smartLoop_eq_nil (maxChars : Nat) (ss : List (List Char)) :
    ∀ buf : List Char, smartLoop maxChars buf ss = [] →
      trimL buf = [] ∧ ∀ s ∈ ss, trimL s = [] := by
  induction ss with
  | nil =>
    intro buf h
    simp only [smartLoop] at h
    split at h
    · next hb => exact ⟨hb, by simp⟩
    · simp at h
  | cons s ss ih =>
    intro buf h
    simp only [smartLoop] at h
    split at h
    · rcases List.append_eq_nil.mp h with ⟨h1, h2⟩
      have hb : trimL buf = [] := by
        split at h1
        · assumption
        · simp at h1
      obtain ⟨hs, hrest⟩ := ih s h2
      refine ⟨hb, fun x hx => ?_⟩
      rcases List.mem_cons.mp hx with rfl | hx
      · exact hs
      · exact hrest x hx
    · obtain ⟨hnew, hrest⟩ := ih _ h
      have hbs : trimL buf = [] ∧ trimL s = [] := by
        split at hnew
        · next hb => subst hb; exact ⟨rfl, hnew⟩
        · rw [trimL_eq_nil_iff] at hnew ⊢
          rw [trimL_eq_nil_iff]
          constructor
          · exact fun c hc => hnew c (List.mem_append_left _ hc)
          · exact fun c hc =>
              hnew c (List.mem_append_right _ (List.mem_cons_of_mem _ hc))
      refine ⟨hbs.1, fun x hx => ?_⟩
      rcases List.mem_cons.mp hx with rfl | hx
      · exact hbs.2
      · exact hrest x hx

theorem sgo_nil (cur pend : List Char) (sawP : Bool) :
    sgo cur pend sawP [] = [(pend ++ cur).reverse] := rfl

theorem sgo_cons_ws_saw {c : Char} (cur pend : List Char) (rest : List Char)
    (h : isWs c = true) :
    sgo cur pend true (c :: rest) = sgo cur (c :: pend) true rest := by
  simp [sgo, h]

theorem sgo_cons_ws_nosaw {c : Char} (cur pend : List Char) (rest : List Char)
    (h : isWs c = true) :
    sgo cur pend false (c :: rest) = sgo (c :: cur) [] false rest := by
  simp [sgo, h]

theorem sgo_cons_split {c : Char} {pend : List Char} (cur rest : List Char)
    (h : isWs c = false) (hp : pend ≠ []) :
    sgo cur pend true (c :: rest) =
      cur.reverse :: sgo [c] [] (isPunct c) rest := by
  have hpe : pend.isEmpty = false := by
    cases pend
    · exact absurd rfl hp
    · rfl
  simp [sgo, h, hpe]

theorem sgo_cons_nosplit {c : Char} {pend : List Char} {sawP : Bool}
    (cur rest : List Char) (h : isWs c = false)
    (hcond : sawP = false ∨ pend = []) :
    sgo cur pend sawP (c :: rest) =
      sgo (c :: (pend ++ cur)) [] (isPunct c) rest := by
  rcases hcond with rfl | rfl
  · simp [sgo, h]
  · cases sawP <;> simp [sgo, h]

/-- Every non-whitespace character of the scanner's input (or current piece)
survives into one of the emitted sentence pieces. -/
theorem sgo_mem (rest : List Char) :
    ∀ (cur pend : List Char) (sawP : Bool) (c : Char),
      isWs c = false → (c ∈ cur ∨ c ∈ rest) →
      ∃ p ∈ sgo cur pend sawP rest, c ∈ p := by
  induction rest with
  | nil =>
    intro cur pend sawP c _ hc
    rcases hc with hc | hc
    · exact ⟨(pend ++ cur).reverse, by simp [sgo], by simp [hc]⟩
    · simp at hc
  | cons c0 rest ih =>
    intro cur pend sawP c hws hc
    by_cases h0 : isWs c0 = true
    · have hcc0 : c ≠ c0 := fun he => by rw [he, h0] at hws; cases hws
      have hc' : c ∈ cur ∨ c ∈ rest := by
        rcases hc with hc | hc
        · exact Or.inl hc
        · rcases List.mem_cons.mp hc with rfl | hc
          · exact absurd rfl hcc0
          · exact Or.inr hc
      cases hsp : sawP
      · subst hsp
        rw [sgo_cons_ws_nosaw cur pend rest h0]
        exact ih (c0 :: cur) [] false c hws
          (by rcases hc' with h | h
              exacts [Or.inl (List.mem_cons_of_mem _ h), Or.inr h])
      · subst hsp
        rw [sgo_cons_ws_saw cur pend rest h0]
        exact ih cur (c0 :: pend) true c hws hc'
    · have h0' : isWs c0 = false := by simpa using h0
      by_cases hsplit : sawP = true ∧ pend ≠ []
      · rw [hsplit.1, sgo_cons_split cur rest h0' hsplit.2]
        rcases hc with hc | hc
        · exact ⟨cur.reverse, by simp, by simpa using hc⟩
        · rcases List.mem_cons.mp hc with rfl | hc
          · obtain ⟨p, hp, hcp⟩ :=
              ih [c] [] (isPunct c) c hws (Or.inl (by simp))
            exact ⟨p, List.mem_cons_of_mem _ hp, hcp⟩
          · obtain ⟨p, hp, hcp⟩ :=
              ih [c0] [] (isPunct c0) c hws (Or.inr hc)
            exact ⟨p, List.mem_cons_of_mem _ hp, hcp⟩
      · have hcond : sawP = false ∨ pend = [] := by
          by_cases hsp : sawP = true
          · right
            by_contra hpe
            exact hsplit ⟨hsp, hpe⟩
          · left
            exact Bool.not_eq_true _ ▸ Bool.of_not_eq_true hsp
        rw [sgo_cons_nosplit cur rest h0' hcond]
        refine ih (c0 :: (pend ++ cur)) [] (isPunct c0) c hws ?_
        rcases hc with hc | hc
        · exact Or.inl (List.mem_cons_of_mem _ (List.mem_append_right _ hc))
        · rcases List.mem_cons.mp hc with rfl | hc
          · exact Or.inl (by simp)
          · exact Or.inr hc

/-- A section with any non-whitespace content always chunks into at least one
part. -/
theorem splitSmart_ne_nil {text : List Char} (maxChars : Nat)
    (h : trimL text ≠ []) : splitSmartBySentences text maxChars ≠ [] := by
  intro hnil
  obtain ⟨hbuf, hall⟩ := smartLoop_eq_nil maxChars (splitSentences text) [] hnil
  have h' : ¬ ∀ c ∈ text, isWs c = true := fun hh => h (trimL_eq_nil_iff.mpr hh)
  push_neg at h'
  obtain ⟨c, hc, hcw⟩ := h'
  have hcw' : isWs c = false := by simpa using hcw
  obtain ⟨p, hp, hcp⟩ := sgo_mem text [] [] false c hcw' (Or.inr hc)
  have := (trimL_eq_nil_iff.mp (hall p hp)) c hcp
  rw [this] at hcw'
  cases hcw'

/-- Source: `mapIdxFrom` preserves length. -/
theorem mapIdxFrom_length {α β : Type} (f : Nat → α → β) :
    ∀ (i : Nat) (l : List α), (mapIdxFrom f i l).length = l.length := by
  intro i l
  induction l generalizing i with
  | nil => rfl
  | cons a as ih => simp [mapIdxFrom, ih]

/-- Membership in `mapIdxFrom` comes from membership in the input. -/
theorem mapIdxFrom_mem {α β : Type} {f : Nat → α → β} {b : β} :
    ∀ {i : Nat} {l : List α}, b ∈ mapIdxFrom f i l →
      ∃ j a, a ∈ l ∧ b = f j a := by
  intro i l
  induction l generalizing i with
  | nil => intro h; simp [mapIdxFrom] at h
  | cons a as ih =>
    intro h
    rcases List.mem_cons.mp h with rfl | h
    · exact ⟨i, a, by simp, rfl⟩
    · obtain ⟨j, a', ha', hb⟩ := ih h
      exact ⟨j, a', List.mem_cons_of_mem _ ha', hb⟩

/-- C4: for a document whose extraction yields `N` sections with (trimmed)
nonempty text, SMART-mode chunking yields at least `N` chunks, and every
chunk's text is within the cap except one that is a whole (trimmed) sentence
of its section's text — an oversized sentence is kept intact, never truncated
mid-sentence. -/
theorem C4_chunk_count_and_cap (name : String) (maxLen : Nat)
    (secs : List SectionMk) (hne : ∀ s ∈ secs, trimL s.text ≠ []) :
    secs.length ≤ (processSections name maxLen secs).length ∧
    ∀ e ∈ processSections name maxLen secs,
      e.text.length ≤ maxLen ∨
      ∃ sec ∈ secs, ∃ sn ∈ splitSentences sec.text, e.text = trimL sn := by
  constructor
  · induction secs with
    | nil => simp [processSections]
    | cons sec secs ih =>
      have hsec := hne sec (by simp)
      have hrest : ∀ s ∈ secs, trimL s.text ≠ [] :=
        fun s hs => hne s (List.mem_cons_of_mem _ hs)
      have hone : 1 ≤ (processSection name maxLen sec).length := by
        simp only [processSection, chunkSection]
        split
        · simp
        · rw [mapIdxFrom_length]
          exact List.length_pos.mpr (splitSmart_ne_nil maxLen hsec)
      calc (sec :: secs).length = secs.length + 1 := by simp
        _ ≤ (processSections name maxLen secs).length +
              (processSection name maxLen sec).length :=
            Nat.add_le_add (ih hrest) hone
        _ = (processSections name maxLen (sec :: secs)).length := by
            simp [processSections, Nat.add_comm]
  · intro e he
    simp only [processSections, List.mem_flatMap] at he
    obtain ⟨sec, hsec, he⟩ := he
    simp only [processSection, chunkSection] at he
    split at he
    · next hlen =>
      rcases List.mem_singleton.mp he with rfl
      exact Or.inl hlen
    · obtain ⟨j, p, hp, rfl⟩ := mapIdxFrom_mem he
      rcases smartLoop_parts maxLen (splitSentences sec.text) [] p hp
        with h | h | ⟨s', hs', h⟩
      · exact Or.inl h
      · left
        rw [h]
        simp [trimL]
      · exact Or.inr ⟨sec, hsec, s', hs', h⟩

/-! ### The 3000-character split scenario (claim C5)

The splitter is evaluated symbolically: a general lemma shows that the
sentence split of cleanly joined sentences returns exactly those sentences,
and the accumulation loop is then stepped at the sentence level with plain
length arithmetic. -/

/-- Join pieces with single spaces. -/
def joinSpace : List (List Char) → List Char
  | [] => []
  | [s] => s
  | s :: ss => s ++ ' ' :: joinSpace ss

/-- A clean sentence: no whitespace, ending in sentence punctuation. -/
def CleanSent (s : List Char) : Prop :=
  (∀ c ∈ s, isWs c = false) ∧ ∃ b p, s = b ++ [p] ∧ isPunct p = true

theorem joinSpace_cons_exists (x : List Char) (xs : List (List Char)) :
    ∃ tl, joinSpace (x :: xs) = x ++ tl := by
  cases xs with
  | nil => exact ⟨[], by simp [joinSpace]⟩
  | cons y ys => exact ⟨' ' :: joinSpace (y :: ys), rfl⟩

/-- Scanning a whitespace-free sentence just moves it into the current piece,
leaving the punctuation flag of its last character. -/
theorem scanSent (b : List Char) :
    ∀ (p : Char) (cur : List Char) (sawP : Bool) (rest : List Char),
      (∀ c ∈ b ++ [p], isWs c = false) →
      sgo cur [] sawP ((b ++ [p]) ++ rest) =
        sgo ((b ++ [p]).reverse ++ cur) [] (isPunct p) rest := by
  induction b with
  | nil =>
    intro p cur sawP rest h
    have hp : isWs p = false := h p (by simp)
    simpa using sgo_cons_nosplit cur rest hp (Or.inr rfl)
  | cons x b' ih =>
    intro p cur sawP rest h
    have hx : isWs x = false := h x (by simp)
    have h' : ∀ c ∈ b' ++ [p], isWs c = false := fun c hc =>
      h c (by simpa using Or.inr (by simpa using hc))
    calc sgo cur [] sawP (((x :: b') ++ [p]) ++ rest)
        = sgo cur [] sawP (x :: ((b' ++ [p]) ++ rest)) := by simp
      _ = sgo (x :: ([] ++ cur)) [] (isPunct x) ((b' ++ [p]) ++ rest) :=
          sgo_cons_nosplit cur _ hx (Or.inr rfl)
      _ = sgo ((b' ++ [p]).reverse ++ (x :: cur)) [] (isPunct p) rest := by
          simpa using ih p (x :: cur) (isPunct x) rest h'
      _ = sgo (((x :: b') ++ [p]).reverse ++ cur) [] (isPunct p) rest := by
          simp

/-- The sentence split of clean, single-space-joined sentences is exactly the
sentence list: the regex split of the ingestion chunker reconstructs the
sentences. -/
theorem splitSentences_joinSpace (ss : List (List Char)) :
    ss ≠ [] → (∀ s ∈ ss, CleanSent s) →
    splitSentences (joinSpace ss) = ss := by
  induction ss with
  | nil => intro h; exact absurd rfl h
  | cons s ss' ih =>
    intro _ hclean
    obtain ⟨hws, b, p, hbp, hp⟩ := hclean s (by simp)
    cases ss' with
    | nil =>
      show sgo [] [] false (joinSpace [s]) = [s]
      have : joinSpace [s] = (b ++ [p]) ++ [] := by simp [joinSpace, hbp]
      rw [this, scanSent b p [] false [] (hbp ▸ hws), sgo_nil]
      simp [hbp]
    | cons s2 ss'' =>
      obtain ⟨hws2, b2, p2, hbp2, hp2⟩ := hclean s2 (by simp)
      have hs2ne : s2 ≠ [] := by
        rw [hbp2]; exact List.append_ne_nil_of_right_ne_nil _ (by simp)
      obtain ⟨c1, t2, hs2⟩ := List.exists_cons_of_ne_nil hs2ne
      have hc1 : isWs c1 = false := hws2 c1 (by rw [hs2]; simp)
      obtain ⟨tl, htl⟩ := joinSpace_cons_exists s2 ss''
      have hJ : joinSpace (s2 :: ss'') = c1 :: (t2 ++ tl) := by
        rw [htl, hs2]; simp
      have step0 : sgo [] [] false (joinSpace (s2 :: ss'')) =
          sgo [c1] [] (isPunct c1) (t2 ++ tl) := by
        rw [hJ]
        simpa using sgo_cons_nosplit [] (t2 ++ tl) hc1 (Or.inl rfl)
      have hjoin : joinSpace (s :: s2 :: ss'') =
          (b ++ [p]) ++ (' ' :: joinSpace (s2 :: ss'')) := by
        rw [← hbp]; rfl
      show sgo [] [] false (joinSpace (s :: s2 :: ss'')) = s :: s2 :: ss''
      rw [hjoin, scanSent b p [] false _ (hbp ▸ hws), hp,
        sgo_cons_ws_saw _ _ _ (by decide), hJ,
        sgo_cons_split _ _ hc1 (by simp)]
      rw [← step0]
      have hrec := ih (by simp) fun x hx => hclean x (List.mem_cons_of_mem _ hx)
      simp only [List.append_nil, List.reverse_reverse]
      rw [← hbp]
      show s :: splitSentences (joinSpace (s2 :: ss'')) = s :: s2 :: ss''
      rw [hrec]

/-- Trimming is the identity on whitespace-free lists. -/
theorem trimL_no_ws {l : List Char} (h : ∀ c ∈ l, isWs c = false) :
    trimL l = l := by
  have drop_eq : ∀ (m : List Char), (∀ c ∈ m, isWs c = false) →
      m.dropWhile isWs = m := by
    intro m hm
    cases m with
    | nil => rfl
    | cons a t => exact List.dropWhile_cons_of_neg (by simp [hm a (by simp)])
  rw [trimL, drop_eq l h, drop_eq l.reverse (fun c hc => h c (List.mem_reverse.mp hc)),
    List.reverse_reverse]

theorem smartLoop_flush {maxChars : Nat} {buf s : List Char}
    (ss : List (List Char)) (h : maxChars < (buf ++ ' ' :: s).length) :
    smartLoop maxChars buf (s :: ss) =
      (if trimL buf = [] then [] else [trimL buf]) ++ smartLoop maxChars s ss := by
  simp only [smartLoop]
  rw [if_pos h]

theorem smartLoop_grow {maxChars : Nat} {buf s : List Char}
    (ss : List (List Char)) (h : ¬ maxChars < (buf ++ ' ' :: s).length) :
    smartLoop maxChars buf (s :: ss) =
      smartLoop maxChars (if buf = [] then s else buf ++ ' ' :: s) ss := by
  simp only [smartLoop]
  rw [if_neg h]

/-- A 1000-character sentence. -/
def sentA : List Char := List.replicate 999 'a' ++ ['.']

/-- Another 1000-character sentence. -/
def sentB : List Char := List.replicate 999 'b' ++ ['.']

/-- A 998-character sentence. -/
def sentC : List Char := List.replicate 997 'c' ++ ['.']

/-- A 3000-character section text: three sentences joined by single spaces. -/
def textC5 : List Char := joinSpace [sentA, sentB, sentC]

theorem sentA_clean : (∀ c ∈ sentA, isWs c = false) ∧ sentA ≠ [] := by
  constructor
  · intro c hc
    rcases List.mem_append.mp hc with hc | hc
    · rw [(List.eq_of_mem_replicate hc : c = 'a')]; decide
    · rw [List.mem_singleton.mp hc]; decide
  · rw [sentA]
    exact List.append_ne_nil_of_right_ne_nil _ (by simp)

theorem sentB_clean : (∀ c ∈ sentB, isWs c = false) ∧ sentB ≠ [] := by
  constructor
  · intro c hc
    rcases List.mem_append.mp hc with hc | hc
    · rw [(List.eq_of_mem_replicate hc : c = 'b')]; decide
    · rw [List.mem_singleton.mp hc]; decide
  · rw [sentB]
    exact List.append_ne_nil_of_right_ne_nil _ (by simp)

theorem sentC_clean : (∀ c ∈ sentC, isWs c = false) ∧ sentC ≠ [] := by
  constructor
  · intro c hc
    rcases List.mem_append.mp hc with hc | hc
    · rw [(List.eq_of_mem_replicate hc : c = 'c')]; decide
    · rw [List.mem_singleton.mp hc]; decide
  · rw [sentC]
    exact List.append_ne_nil_of_right_ne_nil _ (by simp)

theorem sentA_length : sentA.length = 1000 := by
  rw [sentA, List.length_append, List.length_replicate]
  rfl

theorem sentB_length : sentB.length = 1000 := by
  rw [sentB, List.length_append, List.length_replicate]
  rfl

theorem sentC_length : sentC.length = 998 := by
  rw [sentC, List.length_append, List.length_replicate]
  rfl

theorem textC5_split : splitSentences textC5 = [sentA, sentB, sentC] := by
  refine splitSentences_joinSpace [sentA, sentB, sentC] (by simp) ?_
  intro s hs
  rcases List.mem_cons.mp hs with rfl | hs
  · exact ⟨sentA_clean.1, List.replicate 999 'a', '.', rfl, by decide⟩
  rcases List.mem_cons.mp hs with rfl | hs
  · exact ⟨sentB_clean.1, List.replicate 999 'b', '.', rfl, by decide⟩
  rcases List.mem_singleton.mp hs with rfl
  · exact ⟨sentC_clean.1, List.replicate 997 'c', '.', rfl, by decide⟩

theorem textC5_parts : splitSmartBySentences textC5 1200 = [sentA, sentB, sentC] := by
  rw [splitSmartBySentences, textC5_split]
  rw [smartLoop_grow _ (by
    simp only [List.nil_append, List.length_cons, sentA_length]
    omega)]
  rw [if_pos rfl]
  rw [smartLoop_flush _ (by
    simp only [List.length_append, List.length_cons, sentA_length, sentB_length]
    omega)]
  rw [trimL_no_ws sentA_clean.1, if_neg sentA_clean.2]
  rw [smartLoop_flush _ (by
    simp only [List.length_append, List.length_cons, sentB_length, sentC_length]
    omega)]
  rw [trimL_no_ws sentB_clean.1, if_neg sentB_clean.2]
  show [sentA] ++ [sentB] ++ smartLoop 1200 sentC [] = _
  rw [smartLoop, trimL_no_ws sentC_clean.1, if_neg sentC_clean.2]
  rfl

theorem textC5_length : textC5.length = 3000 := by
  show (sentA ++ ' ' :: (sentB ++ ' ' :: sentC)).length = 3000
  simp only [List.length_append, List.length_cons, sentA_length, sentB_length,
    sentC_length]

/-- C5: a 3000-character section under the 1200-character SMART cap splits
into exactly 3 ordered chunks whose titles carry `(part 1)`, `(part 2)`,
`(part 3)` in split order, each at most 1200 characters, and joining the part
texts back with single spaces reconstructs the original sentence sequence. -/
theorem C5_part_titles_scenario :
    textC5.length = 3000 ∧
    splitSmartBySentences textC5 1200 = [sentA, sentB, sentC] ∧
    chunkSection 1200 "Doc" "misc" "ALL" textC5 =
      [⟨"Doc (part 1)", "misc", "ALL", sentA⟩,
       ⟨"Doc (part 2)", "misc", "ALL", sentB⟩,
       ⟨"Doc (part 3)", "misc", "ALL", sentC⟩] ∧
    (∀ p ∈ splitSmartBySentences textC5 1200, p.length ≤ 1200) ∧
    joinSpace (splitSmartBySentences textC5 1200) = textC5 := by
  refine ⟨textC5_length, textC5_parts, ?_, ?_, ?_⟩
  · rw [chunkSection, if_neg (by rw [textC5_length]; omega), textC5_parts]
    rfl
  · rw [textC5_parts]
    intro p hp
    rcases List.mem_cons.mp hp with rfl | hp
    · rw [sentA_length]; omega
    rcases List.mem_cons.mp hp with rfl | hp
    · rw [sentB_length]; omega
    rcases List.mem_singleton.mp hp with rfl
    · rw [sentC_length]; omega
  · rw [textC5_parts]
    rfl

/-- C4 witness: two concrete sections under a small cap. -/
theorem C4_witness :
    (∀ s ∈ [(⟨"A", "One two. Three four. Five six.".data⟩ : SectionMk),
        ⟨"B", "tiny.".data⟩], trimL s.text ≠ []) ∧
    ([(⟨"A", "One two. Three four. Five six.".data⟩ : SectionMk),
        ⟨"B", "tiny.".data⟩].length ≤
      (processSections "doc.docx" 12
        [⟨"A", "One two. Three four. Five six.".data⟩,
         ⟨"B", "tiny.".data⟩]).length) :=
  ⟨by decide,
    (C4_chunk_count_and_cap "doc.docx" 12
      [⟨"A", "One two. Three four. Five six.".data⟩, ⟨"B", "tiny.".data⟩]
      (by decide)).1⟩

end QCB
